import Mathlib

/-
A verification development for the core of the lume-lsp language server.

The Rust sources are shallowly embedded: pure functions become Lean
functions, hash maps and ordered sets (IndexMap / IndexSet / HashSet)
become association lists with the corresponding insertion semantics, and
fallible operations return Option.  Machine integers are modelled as Nat
(no arithmetic in the embedded code overflows usize for realistic
workspaces).  External compiler types (lume_span, lume_hir) are modelled
by the projections the server actually reads.
-/

set_option maxHeartbeats 1000000

namespace LumeLsp

/-- Projection of the compiler's `SourceFile` handle carried inside a
`Location`: the owning package and the file id, the two fields the symbol
index reads (`location.file.package`, `location.file.id`). -/
structure SourceFileH where
  package : Nat
  id : Nat
deriving DecidableEq, Repr, Inhabited

/-- Model of `lume_span::Location`: a source-file handle plus a byte range
`[start, stop)`. -/
structure LocationS where
  file : SourceFileH
  start : Nat
  stop : Nat
deriving DecidableEq, Repr, Inhabited

/-- The four `lume_hir::PathSegment` discriminants. -/
inductive SegKind where
  | namespaceSeg
  | callableSeg
  | typeSeg
  | variantSeg
deriving DecidableEq, Repr, Inhabited

/-- Model of `lume_hir::PathSegment`: its discriminant, name and location.
Type arguments of `Type`/`Callable` segments are elided: they are walked by
`traverse_path_segment`, never read by `LocationVisitor::visit_path`, which
is the function under study here. -/
structure PathSegmentS where
  kind : SegKind
  name : String
  location : LocationS
deriving DecidableEq, Repr, Inhabited

/-- Model of `lume_hir::Path`: the leading segments (`root`) and the final
segment (`name`). -/
structure PathS where
  root : List PathSegmentS
  name : PathSegmentS
deriving DecidableEq, Repr, Inhabited

/-- Model of `lume_infer::query::CallReference`. -/
inductive CallReferenceS where
  | function (id : Nat)
  | method (id : Nat)
deriving DecidableEq, Repr

/-- Model of `SymbolKind` from `src/symbols/lookup.rs`. -/
inductive SymbolKindS where
  | typeSym (name : PathS)
  | callableSym (reference : CallReferenceS)
  | fieldSym (id : Nat)
  | variantSym (name : PathS)
  | patternSym (id : Nat)
  | callSym (id : Nat)
  | memberSym (callee : Nat) (field : String)
  | variableReferenceSym (id : Nat)
deriving DecidableEq, Repr

/-- Model of `SymbolEntry`: a location plus a kind. -/
structure SymbolEntryS where
  location : LocationS
  kind : SymbolKindS
deriving DecidableEq, Repr

/-- `entry.location.index.len()`: the span length `stop - start`. -/
def entryLen (e : SymbolEntryS) : Nat :=
  e.location.stop - e.location.start

/-- The filter predicate of `SymbolLookup::lookup_position`: same file id,
`entry.start <= q.start` and `entry.end >= q.start`. -/
def matchesPos (q : LocationS) (e : SymbolEntryS) : Bool :=
  decide (e.location.file.id = q.file.id ∧ e.location.start ≤ q.start ∧ q.start ≤ e.location.stop)

/-- Rust's `Iterator::min_by_key` on span length: returns the first element
attaining the minimal key, `none` on an empty list. -/
def minByLen : List SymbolEntryS → Option SymbolEntryS
  | [] => none
  | e :: rest =>
    match minByLen rest with
    | none => some e
    | some m => if entryLen m < entryLen e then some m else some e

/-- Model of `SymbolLookup`: the `IndexSet<SymbolEntry>` in iteration
order. -/
structure SymbolLookup where
  symbols : List SymbolEntryS
deriving DecidableEq, Repr

/-- `SymbolLookup::lookup_position`: filter the entries containing the
query's start offset in the same file, then take the minimum by span
length. -/
def SymbolLookup.lookupPosition (lk : SymbolLookup) (q : LocationS) : Option SymbolEntryS :=
  minByLen (lk.symbols.filter (matchesPos q))

theorem minByLen_nil_iff (l : List SymbolEntryS) : minByLen l = none ↔ l = [] := by
  cases l with
  | nil => simp [minByLen]
  | cons e rest =>
    constructor
    · intro h
      exfalso
      cases hr : minByLen rest with
      | none => simp [minByLen, hr] at h
      | some m =>
        by_cases hlt : entryLen m < entryLen e
        · simp [minByLen, hr, hlt] at h
        · simp [minByLen, hr, hlt] at h
    · intro h
      exact absurd h (List.cons_ne_nil _ _)

theorem minByLen_spec :
    ∀ (l : List SymbolEntryS) (m : SymbolEntryS), minByLen l = some m →
      (∃ l₁ l₂, l = l₁ ++ m :: l₂ ∧ ∀ x ∈ l₁, entryLen m < entryLen x) ∧
        ∀ x ∈ l, entryLen m ≤ entryLen x := by
  intro l
  induction l with
  | nil => intro m h; simp [minByLen] at h
  | cons e rest ih =>
    intro m h
    cases hr : minByLen rest with
    | none =>
      have hrest : rest = [] := (minByLen_nil_iff rest).mp hr
      subst hrest
      have hm : e = m := by simpa [minByLen] using h
      subst hm
      exact ⟨⟨[], [], by simp, by simp⟩, by simp⟩
    | some m' =>
      have h' : (if entryLen m' < entryLen e then some m' else some e) = some m := by
        simpa [minByLen, hr] using h
      obtain ⟨⟨l₁, l₂, hdec, hstrict⟩, hmin⟩ := ih m' hr
      by_cases hlt : entryLen m' < entryLen e
      · rw [if_pos hlt] at h'
        have hm : m' = m := by simpa using h'
        subst hm
        refine ⟨⟨e :: l₁, l₂, by simp [hdec], ?_⟩, ?_⟩
        · intro x hx
          rcases List.mem_cons.mp hx with rfl | hx
          · exact hlt
          · exact hstrict x hx
        · intro x hx
          rcases List.mem_cons.mp hx with rfl | hx
          · exact Nat.le_of_lt hlt
          · exact hmin x hx
      · rw [if_neg hlt] at h'
        have hm : e = m := by simpa using h'
        subst hm
        have hle : entryLen e ≤ entryLen m' := Nat.le_of_not_lt hlt
        refine ⟨⟨[], rest, by simp, by simp⟩, ?_⟩
        intro x hx
        rcases List.mem_cons.mp hx with rfl | hx
        · exact Nat.le_refl _
        · exact Nat.le_trans hle (hmin x hx)

theorem filter_decomp {α : Type} {p : α → Bool} :
    ∀ (l l₁ : List α) (m : α) (l₂ : List α), l.filter p = l₁ ++ m :: l₂ →
      ∃ t₁ t₂, l = t₁ ++ m :: t₂ ∧ t₁.filter p = l₁ := by
  intro l
  induction l with
  | nil => intro l₁ m l₂ h; simp at h
  | cons a t ih =>
    intro l₁ m l₂ h
    by_cases hpa : p a = true
    · rw [List.filter_cons_of_pos hpa] at h
      cases l₁ with
      | nil =>
        simp only [List.nil_append, List.cons.injEq] at h
        exact ⟨[], t, by simp [h.1], by simp⟩
      | cons b l₁' =>
        simp only [List.cons_append, List.cons.injEq] at h
        obtain ⟨rfl, h2⟩ := h
        obtain ⟨t₁, t₂, hdec, hfil⟩ := ih l₁' m l₂ h2
        exact ⟨a :: t₁, t₂, by simp [hdec], by simp [List.filter_cons_of_pos hpa, hfil]⟩
    · rw [List.filter_cons_of_neg hpa] at h
      obtain ⟨t₁, t₂, hdec, hfil⟩ := ih l₁ m l₂ h
      exact ⟨a :: t₁, t₂, by simp [hdec], by simp [List.filter_cons_of_neg hpa, hfil]⟩

/-- C1: if `lookup_position(Q)` returns an entry `E`, then `E` lies in the
same file as `Q` with `E.start ≤ Q.start ≤ E.end`, `E` has minimal span
length among all index entries satisfying that predicate, and ties are
resolved by the index's iteration order (every satisfying entry occurring
earlier in the index has a strictly longer span).  If no entry satisfies
the predicate, the result is `none`. -/
theorem lookup_position_spec (lk : SymbolLookup) (q : LocationS) :
    (∀ E, lk.lookupPosition q = some E →
        (E ∈ lk.symbols ∧ matchesPos q E = true) ∧
          (∀ F ∈ lk.symbols, matchesPos q F = true → entryLen E ≤ entryLen F) ∧
          ∃ l₁ l₂, lk.symbols = l₁ ++ E :: l₂ ∧
            ∀ F ∈ l₁, matchesPos q F = true → entryLen E < entryLen F) ∧
      ((∀ F ∈ lk.symbols, matchesPos q F = false) → lk.lookupPosition q = none) := by
  constructor
  · intro E h
    unfold SymbolLookup.lookupPosition at h
    obtain ⟨⟨f₁, f₂, hfdec, hstrict⟩, hmin⟩ := minByLen_spec _ _ h
    have hEfil : E ∈ lk.symbols.filter (matchesPos q) := by
      rw [hfdec]; exact List.mem_append_right _ (List.mem_cons_self _ _)
    have hEmem := List.mem_filter.mp hEfil
    obtain ⟨t₁, t₂, hdec, hfil⟩ := filter_decomp lk.symbols f₁ E f₂ hfdec
    refine ⟨⟨hEmem.1, hEmem.2⟩, ?_, t₁, t₂, hdec, ?_⟩
    · intro F hF hFq
      exact hmin F (List.mem_filter.mpr ⟨hF, hFq⟩)
    · intro F hF hFq
      have : F ∈ f₁ := by
        rw [← hfil]; exact List.mem_filter.mpr ⟨hF, hFq⟩
      exact hstrict F this
  · intro hall
    unfold SymbolLookup.lookupPosition
    have : lk.symbols.filter (matchesPos q) = [] := by
      rw [List.filter_eq_nil_iff]
      intro a ha
      simp [hall a ha]
    rw [this]
    rfl

/-- A concrete symbol index for the C1 witness: two entries in the same
file, the second with the strictly smaller enclosing span. -/
def lkW : SymbolLookup :=
  ⟨[⟨⟨⟨0, 0⟩, 0, 10⟩, SymbolKindS.callSym 1⟩, ⟨⟨⟨0, 0⟩, 2, 5⟩, SymbolKindS.patternSym 2⟩]⟩

def qW : LocationS := ⟨⟨0, 0⟩, 3, 4⟩

def entryBigW : SymbolEntryS := ⟨⟨⟨0, 0⟩, 0, 10⟩, SymbolKindS.callSym 1⟩

def entrySmallW : SymbolEntryS := ⟨⟨⟨0, 0⟩, 2, 5⟩, SymbolKindS.patternSym 2⟩

theorem lookup_position_spec_witness :
    (entrySmallW ∈ lkW.symbols ∧ matchesPos qW entrySmallW = true) ∧
      entryLen entrySmallW ≤ entryLen entryBigW :=
  ⟨((lookup_position_spec lkW qW).1 entrySmallW (by decide)).1,
    ((lookup_position_spec lkW qW).1 entrySmallW (by decide)).2.1 entryBigW (by decide) (by decide)⟩

/-- The full segment list of a path: `root` followed by the final `name`
segment. -/
def segmentsOf (p : PathS) : List PathSegmentS :=
  p.root ++ [p.name]

/-- Model of `lume_hir::Path::parent`: drop the last segment; `none` when
the path is a single segment. -/
def pathParent (p : PathS) : Option PathS :=
  match p.root.getLast? with
  | none => none
  | some lastSeg => some ⟨p.root.dropLast, lastSeg⟩

/-- The sequence of paths visited by the `while let Some(parent) = current`
loop of `LocationVisitor::visit_path`: the path itself followed by its
chain of parents. -/
def parentChain (p : PathS) : List PathS :=
  match hp : pathParent p with
  | none => [p]
  | some q => p :: parentChain q
termination_by p.root.length
decreasing_by
  unfold pathParent at hp
  cases hl : p.root.getLast? with
  | none => rw [hl] at hp; cases hp
  | some s =>
    rw [hl] at hp
    have hq : q = ⟨p.root.dropLast, s⟩ := by
      have := hp
      simp only [Option.some.injEq] at this
      exact this.symm
    have hne : p.root ≠ [] := by
      intro hnil
      rw [hnil] at hl
      cases hl
    have hlen : p.root.length ≠ 0 := by
      simpa [List.length_eq_zero] using hne
    subst hq
    simp only [List.length_dropLast]
    omega

/-- `IndexSet::insert`: append the element unless already present. -/
def insertEntry (l : List SymbolEntryS) (e : SymbolEntryS) : List SymbolEntryS :=
  if e ∈ l then l else l ++ [e]

/-- The `Type` symbol entry inserted for a path `q` whose head segment is a
`Type` segment: kind `Type { name: q }` at the head segment's location. -/
def typeEntry (q : PathS) : SymbolEntryS :=
  ⟨q.name.location, SymbolKindS.typeSym q⟩

/-- The `if let PathSegment::Type {..} = parent.name` test of
`visit_path`. -/
def isTypeHead (q : PathS) : Bool :=
  decide (q.name.kind = SegKind.typeSeg)

/-- Model of `LocationVisitor::visit_path`: walk the parent chain and, for
every path in it whose head segment is a `Type` segment, insert a `Type`
entry for that cumulative path at the segment's location. -/
def visitPath (syms : List SymbolEntryS) (p : PathS) : List SymbolEntryS :=
  (parentChain p).foldl
    (fun s q => if isTypeHead q then insertEntry s (typeEntry q) else s)
    syms

/-- The cumulative path whose segments are the first `i + 1` segments of
`p`: root = first `i` segments, name = segment `i`. -/
def pathUpTo (p : PathS) (i : Nat) : PathS :=
  ⟨(segmentsOf p).take i, (segmentsOf p).getD i p.name⟩

theorem segmentsOf_length (p : PathS) : (segmentsOf p).length = p.root.length + 1 := by
  simp [segmentsOf]

theorem parentChain_of_none (p : PathS) (h : pathParent p = none) : parentChain p = [p] := by
  rw [parentChain.eq_def]
  split
  · rfl
  · next q hq => rw [h] at hq; cases hq

theorem parentChain_of_some (p q : PathS) (h : pathParent p = some q) :
    parentChain p = p :: parentChain q := by
  rw [parentChain.eq_def]
  split
  · next hq => rw [h] at hq; cases hq
  · next q' hq =>
    rw [h] at hq
    simp only [Option.some.injEq] at hq
    rw [hq]

theorem pathParent_concat (rs : List PathSegmentS) (s nm : PathSegmentS) :
    pathParent ⟨rs ++ [s], nm⟩ = some ⟨rs, s⟩ := by
  simp [pathParent]

theorem parentChain_eq (root : List PathSegmentS) (nm : PathSegmentS) :
    parentChain ⟨root, nm⟩ =
      ((List.range (root.length + 1)).reverse).map (pathUpTo ⟨root, nm⟩) := by
  induction root using List.reverseRecOn generalizing nm with
  | nil =>
    have h0 : pathParent ⟨([] : List PathSegmentS), nm⟩ = none := by simp [pathParent]
    rw [parentChain_of_none _ h0]
    have hr1 : (List.range (([] : List PathSegmentS).length + 1)).reverse = [0] := rfl
    rw [hr1]
    simp [pathUpTo, segmentsOf]
  | append_singleton rs s ih =>
    rw [parentChain_of_some _ _ (pathParent_concat rs s nm), ih s]
    have hrev : (List.range (rs.length + 1 + 1)).reverse =
        (rs.length + 1) :: (List.range (rs.length + 1)).reverse := by
      rw [List.range_succ, List.reverse_append]
      rfl
    have hlen : (rs ++ [s]).length = rs.length + 1 := by simp
    rw [hlen, hrev, List.map_cons]
    have hhead : pathUpTo ⟨rs ++ [s], nm⟩ (rs.length + 1) = ⟨rs ++ [s], nm⟩ := by
      have h1 : ((rs ++ [s]) ++ [nm]).take (rs.length + 1) = rs ++ [s] := by
        rw [show rs.length + 1 = (rs ++ [s]).length by simp]
        exact List.take_left _ _
      have h2 : ((rs ++ [s]) ++ [nm]).getD (rs.length + 1) nm = nm := by
        rw [show rs.length + 1 = (rs ++ [s]).length by simp]
        rw [List.getD_append_right _ _ _ _ (Nat.le_refl _)]
        simp
      unfold pathUpTo
      simp only [segmentsOf]
      rw [h1, h2]
    have htail :
        (List.range (rs.length + 1)).reverse.map (pathUpTo ⟨rs, s⟩) =
          (List.range (rs.length + 1)).reverse.map (pathUpTo ⟨rs ++ [s], nm⟩) := by
      apply List.map_congr_left
      intro i hi
      have hilt : i < rs.length + 1 := by
        rw [List.mem_reverse, List.mem_range] at hi
        exact hi
      have hiltlen : i < (rs ++ [s]).length := by
        rw [List.length_append, List.length_singleton]
        omega
      have htake : ((rs ++ [s]) ++ [nm]).take i = (rs ++ [s]).take i :=
        List.take_append_of_le_length (Nat.le_of_lt hiltlen)
      have hgd : ((rs ++ [s]) ++ [nm]).getD i nm = (rs ++ [s]).getD i s := by
        rw [List.getD_append _ _ _ _ hiltlen, List.getD_eq_getElem _ _ hiltlen,
          List.getD_eq_getElem _ _ hiltlen]
      unfold pathUpTo
      simp only [segmentsOf]
      rw [htake, hgd]
    rw [hhead, htail]

theorem foldl_visit_eq (chain : List PathS) (syms : List SymbolEntryS) :
    chain.foldl (fun s q => if isTypeHead q then insertEntry s (typeEntry q) else s) syms =
      ((chain.filter isTypeHead).map typeEntry).foldl insertEntry syms := by
  induction chain generalizing syms with
  | nil => rfl
  | cons q rest ih =>
    by_cases h : isTypeHead q = true
    · rw [List.foldl_cons, if_pos h, List.filter_cons_of_pos h, List.map_cons, List.foldl_cons]
      exact ih _
    · have h' : ¬ (isTypeHead q = true) := h
      rw [List.foldl_cons, if_neg h', List.filter_cons_of_neg h']
      exact ih _

theorem foldl_insertEntry_eq_append :
    ∀ (news syms : List SymbolEntryS), news.Nodup → (∀ e ∈ news, e ∉ syms) →
      news.foldl insertEntry syms = syms ++ news := by
  intro news
  induction news with
  | nil => intro syms _ _; simp
  | cons n rest ih =>
    intro syms hnd hnotin
    have hn : n ∉ syms := hnotin n (List.mem_cons_self _ _)
    have step : insertEntry syms n = syms ++ [n] := by simp [insertEntry, hn]
    rw [List.foldl_cons, step]
    have hnd' : rest.Nodup := (List.nodup_cons.mp hnd).2
    have hnr : n ∉ rest := (List.nodup_cons.mp hnd).1
    have hni : ∀ e ∈ rest, e ∉ syms ++ [n] := by
      intro e he
      simp only [List.mem_append, List.mem_singleton]
      push_neg
      refine ⟨hnotin e (List.mem_cons_of_mem _ he), ?_⟩
      intro hne
      exact hnr (hne ▸ he)
    rw [ih (syms ++ [n]) hnd' hni]
    simp

/-- The list of entries `visit_path` produces on a fresh visitor, in indexed
form: one `Type` entry per `Type` segment of the path, walking from the
leaf segment towards the root. -/
theorem visitPath_fresh_eq (p : PathS) :
    visitPath [] p =
      (((List.range (segmentsOf p).length).reverse).filter
          (fun i => isTypeHead (pathUpTo p i))).map (fun i => typeEntry (pathUpTo p i)) := by
  have hn : (segmentsOf p).length = p.root.length + 1 := segmentsOf_length p
  have hchain := parentChain_eq p.root p.name
  have hp : (⟨p.root, p.name⟩ : PathS) = p := rfl
  rw [hp] at hchain
  have hcands :
      ((parentChain p).filter isTypeHead).map typeEntry =
        (((List.range (segmentsOf p).length).reverse).filter
            (fun i => isTypeHead (pathUpTo p i))).map (fun i => typeEntry (pathUpTo p i)) := by
    rw [hchain, hn, List.filter_map, List.map_map]
    rfl
  have hnodup :
      (((parentChain p).filter isTypeHead).map typeEntry).Nodup := by
    rw [hcands]
    have h1 : ((List.range (segmentsOf p).length).reverse).Nodup :=
      List.nodup_reverse.mpr (List.nodup_range _)
    have h2 :
        (((List.range (segmentsOf p).length).reverse).filter
            (fun i => isTypeHead (pathUpTo p i))).Nodup := h1.filter _
    apply h2.map_on
    intro i hi j hj hij
    have hilt : i < (segmentsOf p).length := by
      have := (List.mem_filter.mp hi).1
      rw [List.mem_reverse, List.mem_range] at this
      exact this
    have hjlt : j < (segmentsOf p).length := by
      have := (List.mem_filter.mp hj).1
      rw [List.mem_reverse, List.mem_range] at this
      exact this
    have hpaths : pathUpTo p i = pathUpTo p j := by
      have := hij
      simp only [typeEntry, SymbolEntryS.mk.injEq, SymbolKindS.typeSym.injEq] at this
      exact this.2
    have hroots : (segmentsOf p).take i = (segmentsOf p).take j :=
      congrArg PathS.root hpaths
    have hlens := congrArg List.length hroots
    simp only [List.length_take] at hlens
    omega
  unfold visitPath
  rw [foldl_visit_eq, foldl_insertEntry_eq_append _ _ hnodup (by intro e _; simp),
    List.nil_append, hcands]

theorem countP_range_getD {α : Type} (l : List α) (d : α) (P : α → Bool) :
    (List.range l.length).countP (fun i => P (l.getD i d)) = l.countP P := by
  induction l with
  | nil => rfl
  | cons a t ih =>
    have hr : List.range (a :: t).length = 0 :: (List.range t.length).map Nat.succ := by
      rw [List.length_cons, List.range_succ_eq_map]
    rw [hr, List.countP_cons, List.countP_map]
    have h1 :
        (List.range t.length).countP
            ((fun i => P ((a :: t).getD i d)) ∘ Nat.succ) =
          (List.range t.length).countP (fun i => P (t.getD i d)) := by
      apply List.countP_congr
      intro i _
      simp [Function.comp]
    rw [h1, ih, List.countP_cons]
    simp

/-- C9: on every HIR path, `visit_path` produces exactly one `Type` entry
per `Type` segment of the path (leaf or ancestor), located at that
segment's own location, whose payload is the cumulative path whose
segments are those of the original path up to and including that
segment. -/
theorem visit_path_type_entries (p : PathS) :
    ((visitPath [] p).length =
        (segmentsOf p).countP (fun sg => decide (sg.kind = SegKind.typeSeg))) ∧
      (∀ i, i < (segmentsOf p).length →
          ((segmentsOf p).getD i p.name).kind = SegKind.typeSeg →
          (⟨((segmentsOf p).getD i p.name).location,
              SymbolKindS.typeSym (pathUpTo p i)⟩ : SymbolEntryS) ∈ visitPath [] p) ∧
      ∀ e ∈ visitPath [] p, ∃ i, i < (segmentsOf p).length ∧
          ((segmentsOf p).getD i p.name).kind = SegKind.typeSeg ∧
          e = ⟨((segmentsOf p).getD i p.name).location, SymbolKindS.typeSym (pathUpTo p i)⟩ := by
  have hfresh := visitPath_fresh_eq p
  have hfi : ∀ i, isTypeHead (pathUpTo p i) =
      decide ((((segmentsOf p).getD i p.name).kind = SegKind.typeSeg)) := fun _ => rfl
  have hent : ∀ i, typeEntry (pathUpTo p i) =
      ⟨((segmentsOf p).getD i p.name).location, SymbolKindS.typeSym (pathUpTo p i)⟩ :=
    fun _ => rfl
  refine ⟨?_, ?_, ?_⟩
  · rw [hfresh, List.length_map, ← List.countP_eq_length_filter, List.countP_reverse]
    have hfe : (fun i => isTypeHead (pathUpTo p i)) =
        fun i => decide ((((segmentsOf p).getD i p.name).kind = SegKind.typeSeg)) :=
      funext hfi
    rw [hfe]
    exact countP_range_getD (segmentsOf p) p.name (fun sg => decide (sg.kind = SegKind.typeSeg))
  · intro i hilt hkind
    rw [hfresh]
    apply List.mem_map.mpr
    refine ⟨i, ?_, hent i⟩
    apply List.mem_filter.mpr
    refine ⟨?_, ?_⟩
    · rw [List.mem_reverse, List.mem_range]
      exact hilt
    · rw [hfi i]
      exact decide_eq_true hkind
  · intro e he
    rw [hfresh] at he
    obtain ⟨i, hifil, hie⟩ := List.mem_map.mp he
    have hmem := List.mem_filter.mp hifil
    have hilt : i < (segmentsOf p).length := by
      have := hmem.1
      rw [List.mem_reverse, List.mem_range] at this
      exact this
    have hkind : ((segmentsOf p).getD i p.name).kind = SegKind.typeSeg := by
      have := hmem.2
      rw [hfi i] at this
      exact of_decide_eq_true this
    refine ⟨i, hilt, hkind, ?_⟩
    rw [← hie]
    exact hent i

/-- A concrete path with three `Type` segments (`std::io::Reader`) for the
C9 witness. -/
def pathW : PathS :=
  ⟨[⟨SegKind.typeSeg, "std", ⟨⟨0, 1⟩, 0, 3⟩⟩, ⟨SegKind.typeSeg, "io", ⟨⟨0, 1⟩, 5, 7⟩⟩],
    ⟨SegKind.typeSeg, "Reader", ⟨⟨0, 1⟩, 9, 15⟩⟩⟩

theorem visit_path_type_entries_witness :
    (visitPath [] pathW).length = 3 ∧
      (⟨⟨⟨0, 1⟩, 5, 7⟩, SymbolKindS.typeSym (pathUpTo pathW 1)⟩ : SymbolEntryS) ∈
        visitPath [] pathW :=
  ⟨((visit_path_type_entries pathW).1).trans (by decide),
    (visit_path_type_entries pathW).2.1 1 (by decide) (by decide)⟩

/-- Model of the compiler's `SourceFile` record: id, name, content and
owning package (`lume_span::SourceFile`). -/
structure SourceFileC where
  id : Nat
  name : String
  content : String
  package : Nat
deriving DecidableEq, Repr

/-- Model of `MappedSourceFile` from `src/state.rs`: a URI plus a
`SourceFile`. -/
structure MappedSourceFile where
  uri : String
  file : SourceFileC
deriving DecidableEq, Repr

/-- Model of `Vfs`: the workspace root URI and the
`IndexMap<SourceFileId, MappedSourceFile>` in insertion order.
`SourceFileId` is `hash_id(uri)`; the hash is modelled as the URI itself
(collisions of distinct URIs are ignored), so an entry's key is its
`uri` field. -/
structure VfsS where
  workspaceRoot : String
  sourceFiles : List MappedSourceFile
deriving DecidableEq, Repr

/-- `Vfs::get_document`: first entry whose `uri` field equals the query
(iterates the map's values). -/
def getDocument (vfs : VfsS) (uri : String) : Option MappedSourceFile :=
  vfs.sourceFiles.find? (fun e => e.uri == uri)

/-- `IndexMap::insert` keyed by the URI: replace the existing entry in
place, or append a new one. -/
def mapInsert (l : List MappedSourceFile) (uri : String) (file : SourceFileC) :
    List MappedSourceFile :=
  match l with
  | [] => [⟨uri, file⟩]
  | e :: rest =>
    if e.uri == uri then ⟨uri, file⟩ :: rest else e :: mapInsert rest uri file

/-- `Vfs::add_document`. -/
def addDocument (vfs : VfsS) (uri : String) (file : SourceFileC) : VfsS :=
  ⟨vfs.workspaceRoot, mapInsert vfs.sourceFiles uri file⟩

/-- `Vfs::remove_document`: `IndexMap::swap_remove` keyed by the URI —
the removed slot is filled by the last entry — returning whether the key
existed. -/
def removeDocument (vfs : VfsS) (uri : String) : VfsS × Bool :=
  match vfs.sourceFiles.findIdx? (fun e => e.uri == uri) with
  | none => (vfs, false)
  | some i =>
    match vfs.sourceFiles.getLast? with
    | none => (vfs, false)
    | some lastE =>
      (⟨vfs.workspaceRoot, (vfs.sourceFiles.set i lastE).dropLast⟩, true)

/-- `Vfs::change_document`: no-op when the document is absent, otherwise
re-insert under the same URI with the new content and the preserved
compiler identity (`id`, `name`, `package`). -/
def changeDocument (vfs : VfsS) (uri : String) (content : String) : VfsS :=
  match getDocument vfs uri with
  | none => vfs
  | some document =>
    addDocument vfs uri ⟨document.file.id, document.file.name, content, document.file.package⟩

/-- `Uri::path()`: strip the `file://` scheme. -/
def uriPath (u : String) : String :=
  if ("file://").isPrefixOf u then u.drop 7 else u

/-- `insert` into the `IndexMap<FileName, String>` of source overrides:
replace in place or append. -/
def overridesInsert (l : List (String × String)) (k v : String) : List (String × String) :=
  match l with
  | [] => [(k, v)]
  | e :: rest => if e.1 == k then (k, v) :: rest else e :: overridesInsert rest k v

/-- `Vfs::build_source_overrides`: for each document in insertion order,
map its path — made workspace-relative when under the root — to its
content. -/
def buildSourceOverrides (vfs : VfsS) : List (String × String) :=
  vfs.sourceFiles.foldl
    (fun acc sf =>
      let filePath := uriPath sf.uri
      let rootPath := uriPath vfs.workspaceRoot
      let rel := if rootPath.isPrefixOf filePath then filePath.drop rootPath.length else filePath
      overridesInsert acc rel sf.file.content)
    []

theorem find_change_decomp :
    ∀ (l : List MappedSourceFile) (uri : String) (document : MappedSourceFile),
      l.find? (fun e => e.uri == uri) = some document →
      ∃ l₁ l₂, l = l₁ ++ document :: l₂ ∧ (∀ e ∈ l₁, e.uri ≠ uri) ∧ document.uri = uri ∧
        ∀ f, mapInsert l uri f = l₁ ++ (⟨uri, f⟩ : MappedSourceFile) :: l₂ := by
  intro l
  induction l with
  | nil => intro uri document h; simp at h
  | cons a rest ih =>
    intro uri document h
    by_cases ha : a.uri = uri
    · have hb : (a.uri == uri) = true := beq_iff_eq.mpr ha
      have hd : a = document := by
        have h' := h
        simp only [List.find?_cons, hb, Option.some.injEq] at h'
        exact h'
      subst hd
      refine ⟨[], rest, by simp, by simp, ha, ?_⟩
      intro f
      simp [mapInsert, hb]
    · have hb : (a.uri == uri) = false := by
        simpa using ha
      have h' := h
      simp only [List.find?_cons, hb] at h'
      obtain ⟨l₁, l₂, hdec, hnone, hduri, hins⟩ := ih uri document h'
      refine ⟨a :: l₁, l₂, by simp [hdec], ?_, hduri, ?_⟩
      · intro e he
        rcases List.mem_cons.mp he with rfl | he
        · exact ha
        · exact hnone e he
      · intro f
        simp [mapInsert, hb, hins f]

/-- C7: `change_document` is a silent no-op for a URI not in the VFS; for a
present URI it replaces only that entry's content, preserving the
compiler identity (`id`, `name`, `package`) and leaving every other VFS
entry (and the workspace root) unchanged. -/
theorem change_document_spec (vfs : VfsS) (uri content : String) :
    (getDocument vfs uri = none → changeDocument vfs uri content = vfs) ∧
      ∀ document, getDocument vfs uri = some document →
        document.uri = uri ∧
        ∃ l₁ l₂, vfs.sourceFiles = l₁ ++ document :: l₂ ∧ (∀ e ∈ l₁, e.uri ≠ uri) ∧
          (changeDocument vfs uri content).workspaceRoot = vfs.workspaceRoot ∧
          (changeDocument vfs uri content).sourceFiles =
            l₁ ++ (⟨uri, ⟨document.file.id, document.file.name, content,
              document.file.package⟩⟩ : MappedSourceFile) :: l₂ := by
  constructor
  · intro h
    simp [changeDocument, h]
  · intro document h
    obtain ⟨l₁, l₂, hdec, hnone, hduri, hins⟩ :=
      find_change_decomp vfs.sourceFiles uri document h
    refine ⟨hduri, l₁, l₂, hdec, hnone, ?_, ?_⟩
    · simp [changeDocument, h, addDocument]
    · simp only [changeDocument, h, addDocument]
      exact hins _

def vfsW7 : VfsS :=
  ⟨"file:///ws/",
    [⟨"file:///ws/a.lm", ⟨1, "a.lm", "aaa", 0⟩⟩, ⟨"file:///ws/b.lm", ⟨2, "b.lm", "bbb", 0⟩⟩]⟩

def docW7 : MappedSourceFile := ⟨"file:///ws/b.lm", ⟨2, "b.lm", "bbb", 0⟩⟩

theorem change_document_spec_witness :
    docW7.uri = "file:///ws/b.lm" ∧
      ∃ l₁ l₂, vfsW7.sourceFiles = l₁ ++ docW7 :: l₂ ∧
        (∀ e ∈ l₁, e.uri ≠ "file:///ws/b.lm") ∧
        (changeDocument vfsW7 "file:///ws/b.lm" "new").workspaceRoot = vfsW7.workspaceRoot ∧
        (changeDocument vfsW7 "file:///ws/b.lm" "new").sourceFiles =
          l₁ ++ (⟨"file:///ws/b.lm", ⟨2, "b.lm", "new", 0⟩⟩ : MappedSourceFile) :: l₂ :=
  (change_document_spec vfsW7 "file:///ws/b.lm" "new").2 docW7 (by decide)

theorem mapInsert_absent :
    ∀ (l : List MappedSourceFile) (uri : String) (f : SourceFileC),
      (∀ e ∈ l, e.uri ≠ uri) → mapInsert l uri f = l ++ [⟨uri, f⟩] := by
  intro l
  induction l with
  | nil => intro uri f _; rfl
  | cons a rest ih =>
    intro uri f h
    have ha : (a.uri == uri) = false := by
      simpa using h a (List.mem_cons_self _ _)
    simp only [mapInsert, ha, Bool.false_eq_true, if_false, List.cons_append]
    rw [ih uri f (fun e he => h e (List.mem_cons_of_mem _ he))]

theorem findIdx?_absent_append (uri : String) (f : SourceFileC) :
    ∀ (l : List MappedSourceFile), (∀ e ∈ l, e.uri ≠ uri) →
      ((l ++ [(⟨uri, f⟩ : MappedSourceFile)]).findIdx? (fun e => e.uri == uri)) =
        some l.length := by
  intro l
  induction l with
  | nil =>
    intro _
    simp [List.findIdx?_cons]
  | cons a rest ih =>
    intro h
    have ha : (a.uri == uri) = false := by
      simpa using h a (List.mem_cons_self _ _)
    rw [List.cons_append, List.findIdx?_cons, if_neg (by simp [ha]), List.findIdx?_succ,
      ih (fun e he => h e (List.mem_cons_of_mem _ he))]
    simp

theorem set_length_append {α : Type} :
    ∀ (l : List α) (a b : α), (l ++ [a]).set l.length b = l ++ [b] := by
  intro l
  induction l with
  | nil => intro a b; rfl
  | cons x rest ih =>
    intro a b
    simp only [List.cons_append, List.length_cons, List.set_cons_succ]
    rw [ih a b]

/-- C8: adding a document under a fresh URI (`didOpen`) and then removing
it (`didClose`) restores the VFS exactly, hence `build_overrides()` is
restored including its iteration order. -/
theorem open_close_round_trip (vfs : VfsS) (uri : String) (file : SourceFileC)
    (h : ∀ e ∈ vfs.sourceFiles, e.uri ≠ uri) :
    (removeDocument (addDocument vfs uri file) uri).1 = vfs ∧
      (removeDocument (addDocument vfs uri file) uri).2 = true ∧
      buildSourceOverrides (removeDocument (addDocument vfs uri file) uri).1 =
        buildSourceOverrides vfs := by
  have hadd : (addDocument vfs uri file).sourceFiles = vfs.sourceFiles ++ [⟨uri, file⟩] :=
    mapInsert_absent vfs.sourceFiles uri file h
  have hfind := findIdx?_absent_append uri file vfs.sourceFiles h
  have hlast : (vfs.sourceFiles ++ [(⟨uri, file⟩ : MappedSourceFile)]).getLast? =
      some ⟨uri, file⟩ := by
    simp
  have hres : (removeDocument (addDocument vfs uri file) uri).1 = vfs := by
    simp only [removeDocument, addDocument]
    rw [show mapInsert vfs.sourceFiles uri file = vfs.sourceFiles ++ [⟨uri, file⟩] from
      mapInsert_absent vfs.sourceFiles uri file h]
    rw [hfind, hlast]
    simp only [set_length_append, List.dropLast_concat]
  refine ⟨hres, ?_, by rw [hres]⟩
  simp only [removeDocument, addDocument]
  rw [show mapInsert vfs.sourceFiles uri file = vfs.sourceFiles ++ [⟨uri, file⟩] from
    mapInsert_absent vfs.sourceFiles uri file h]
  rw [hfind, hlast]

theorem open_close_round_trip_witness :
    (removeDocument (addDocument vfsW7 "file:///ws/c.lm" ⟨3, "c.lm", "ccc", 0⟩)
        "file:///ws/c.lm").1 = vfsW7 ∧
      buildSourceOverrides
          (removeDocument (addDocument vfsW7 "file:///ws/c.lm" ⟨3, "c.lm", "ccc", 0⟩)
            "file:///ws/c.lm").1 =
        buildSourceOverrides vfsW7 :=
  ⟨(open_close_round_trip vfsW7 "file:///ws/c.lm" ⟨3, "c.lm", "ccc", 0⟩ (by decide)).1,
    (open_close_round_trip vfsW7 "file:///ws/c.lm" ⟨3, "c.lm", "ccc", 0⟩ (by decide)).2.2⟩

/-- Split a character list at newline bytes, keeping every (possibly empty)
segment; there is always one more segment than there are newlines. -/
def splitNl : List Char → List (List Char)
  | [] => [[]]
  | c :: rest =>
    if c = '\n' then [] :: splitNl rest
    else
      match splitNl rest with
      | [] => [[c]]
      | s :: ss => (c :: s) :: ss

/-- Drop one trailing carriage return: the `\r` of a `\r\n` line ending,
which Rust's `str::lines` strips together with the `\n`.  Applied only to
newline-terminated segments. -/
def stripCR (l : List Char) : List Char :=
  match l.getLast? with
  | some c => if c = '\r' then l.dropLast else l
  | none => l

/-- Rust's `str::lines` over the content: split at `\n`; every segment
except the last was terminated by a `\n`, so a `\r` immediately before
that `\n` is stripped from it.  When the content ends with a newline the
final segment is empty and is dropped (the final line ending is
optional); otherwise the final segment is a line kept verbatim — in
particular a bare trailing `\r` with no following `\n` stays on it. -/
def linesOf (cs : List Char) : List (List Char) :=
  let segs := splitNl cs
  let body := (segs.dropLast).map stripCR
  match segs.getLast? with
  | none => body
  | some [] => body
  | some lastSeg => body ++ [lastSeg]

/-- The lines of a document content string. -/
def rustLines (s : String) : List (List Char) :=
  linesOf s.data

/-- `line_str.len()`: the UTF-8 byte length of a line. -/
def lineByteLen (l : List Char) : Nat :=
  (l.map Char.utf8Size).sum

/-- The UTF-8 byte length of a whole content string. -/
def contentByteLen (s : String) : Nat :=
  (s.data.map Char.utf8Size).sum

/-- Model of `State::location_of`: look the document up in the VFS, start
the index at `column`, add `line_str.len() + 1` for each of the first
`line` lines, and return the single-byte range `[index, index + 1)` (no
clipping is performed). -/
def locationOf (vfs : VfsS) (uri : String) (line column : Nat) : Option LocationS :=
  (getDocument vfs uri).map (fun document =>
    let idx :=
      ((rustLines document.file.content).take line).foldl
        (fun acc ln => acc + (lineByteLen ln + 1)) column
    ⟨⟨document.file.package, document.file.id⟩, idx, idx + 1⟩)

theorem foldl_lineAdd (ls : List (List Char)) :
    ∀ (c : Nat),
      ls.foldl (fun acc ln => acc + (lineByteLen ln + 1)) c =
        c + (ls.map lineByteLen).sum + ls.length := by
  induction ls with
  | nil => intro c; simp
  | cons l rest ih =>
    intro c
    rw [List.foldl_cons, ih]
    simp
    omega

/-- C5 (amended): for a document present in the VFS, `location_of` returns
the single-byte range `[S, S + 1)` where `S` is the column plus the byte
lengths of the first `min line numLines` lines plus one byte per counted
line; for an absent document it returns `none`.  No clipping to the
content length is performed. -/
theorem location_of_spec (vfs : VfsS) (uri : String) (line column : Nat) :
    (getDocument vfs uri = none → locationOf vfs uri line column = none) ∧
      ∀ document, getDocument vfs uri = some document →
        locationOf vfs uri line column =
          some ⟨⟨document.file.package, document.file.id⟩,
            column + (((rustLines document.file.content).take line).map lineByteLen).sum +
              min line (rustLines document.file.content).length,
            (column + (((rustLines document.file.content).take line).map lineByteLen).sum +
              min line (rustLines document.file.content).length) + 1⟩ := by
  constructor
  · intro h
    simp [locationOf, h]
  · intro document h
    simp only [locationOf, h, Option.map_some', Option.some.injEq]
    rw [foldl_lineAdd]
    rw [List.length_take]

/-- A concrete VFS for the C5 theorems: one document with two lines. -/
def vfsW5 : VfsS :=
  ⟨"file:///ws/", [⟨"file:///ws/a.lm", ⟨7, "a.lm", "ab\ncd", 3⟩⟩]⟩

theorem location_of_spec_witness :
    locationOf vfsW5 "file:///ws/a.lm" 1 1 = some ⟨⟨3, 7⟩, 4, 5⟩ :=
  ((location_of_spec vfsW5 "file:///ws/a.lm" 1 1).2
      ⟨"file:///ws/a.lm", ⟨7, "a.lm", "ab\ncd", 3⟩⟩ (by decide)).trans (by decide)

/-- A one-document VFS whose content is only two bytes long. -/
def vfsClip : VfsS :=
  ⟨"file:///ws/", [⟨"file:///ws/a.lm", ⟨7, "a.lm", "ab", 3⟩⟩]⟩

/-- C5 counterexample: the claim says the returned bounds are clipped to
the document's content length, but for column 100 on a two-byte document
`location_of` returns `[100, 101)`, far beyond the content's 2 bytes —
no clipping happens anywhere in `State::location_of`. -/
theorem location_of_no_clip :
    locationOf vfsClip "file:///ws/a.lm" 0 100 = some ⟨⟨3, 7⟩, 100, 101⟩ ∧
      contentByteLen "ab" = 2 ∧ ¬(100 ≤ contentByteLen "ab") := by
  refine ⟨?_, by decide, by decide⟩
  decide

/-- A compiled package, holding the fragment of its checked HIR that the
symbol visitor reads in this development: the paths reachable by the
traversal.  (The full HIR node algebra is walked by `traverse`, but every
symbol-index claim under study concerns the path visitor, so nodes are
modelled by the paths they contribute; `from_hir` on this fragment cannot
fail, since `expect_statement` / `expect_expression` are not involved.) -/
structure PackageS where
  package : Nat
  hir : List PathS
deriving DecidableEq, Repr

/-- Model of `CheckedPackageGraph`: the package map in iteration order. -/
structure CheckedPackageGraphS where
  packages : List PackageS
deriving DecidableEq, Repr

/-- Model of `CheckedWorkspace`: the stored graph plus the symbol index
derived from it. -/
structure CheckedWorkspaceS where
  graph : CheckedPackageGraphS
  symbols : SymbolLookup
deriving DecidableEq, Repr

/-- `SymbolLookup::from_hir` over the path fragment: run the visitor over
every path. -/
def fromHir (hir : List PathS) : SymbolLookup :=
  ⟨hir.foldl visitPath []⟩

/-- `SymbolLookup::extend`: `IndexSet::extend`, deduplicating inserts. -/
def lookupExtend (a b : SymbolLookup) : SymbolLookup :=
  ⟨b.symbols.foldl insertEntry a.symbols⟩

/-- The union of the per-package indices, as built by
`CheckedWorkspace::update_symbol_lookup`. -/
def symbolsOfGraph (g : CheckedPackageGraphS) : SymbolLookup :=
  g.packages.foldl (fun acc pk => lookupExtend acc (fromHir pk.hir)) ⟨[]⟩

/-- `CheckedWorkspace::update_symbol_lookup`: replace the graph and the
symbol index together. -/
def updateSymbolLookup (g : CheckedPackageGraphS) : CheckedWorkspaceS :=
  ⟨g, symbolsOfGraph g⟩

/-- Model of an `error_snippet::Label`: `source()` may be absent, and the
source's `name()` may be absent; plus the label message. -/
structure RawLabel where
  source? : Option (Option String)
  message : String
deriving DecidableEq, Repr

/-- Model of an `error_snippet::Diagnostic` as read by the router: its
optional label list and its help notes.  (Severity and code only shape
fields of the emitted LSP diagnostic and are not read by any claim.) -/
structure RawDiag where
  labels? : Option (List RawLabel)
  help : List String
deriving DecidableEq, Repr

/-- A `textDocument/publishDiagnostics` notification: target URI plus the
diagnostic messages it carries. -/
structure Publication where
  uri : String
  diags : List String
deriving DecidableEq, Repr

/-- The server state of `State` in `src/state.rs`: VFS, checked workspace,
the two error-file sets, the `DiagCtx` contents, and the outbound
notification channel. -/
structure ServerState where
  vfs : VfsS
  checked : CheckedWorkspaceS
  prev : List String
  curr : List String
  dcxDiags : List RawDiag
  outbox : List Publication
deriving DecidableEq, Repr

/-- `HashSet::insert` on a URI set modelled as a duplicate-free list. -/
def insertUri (s : List String) (u : String) : List String :=
  if u ∈ s then s else s ++ [u]

/-- `State::lower_diagnostic_label`: require a source and a source name,
then build the URI — absolute names keep their path under a `file://`
scheme, relative names are joined onto the workspace root (the code joins
onto the root URI string as-is). -/
def lowerLabel (root : String) (lab : RawLabel) : Option (String × String) :=
  match lab.source? with
  | none => none
  | some none => none
  | some (some nm) =>
    let uri := if nm.startsWith "/" then "file://" ++ nm else "file://" ++ root ++ nm
    some (uri, lab.message)

/-- The published message: the primary label's message followed by a
newline-separated help note for each help entry. -/
def diagMessage (d : RawDiag) (primaryMsg : String) : String :=
  d.help.foldl (fun m h => m ++ "\n" ++ h) primaryMsg

/-- The lowered labels of a diagnostic (empty when `labels()` is `None`). -/
def loweredLabels (root : String) (d : RawDiag) : List (String × String) :=
  match d.labels? with
  | none => []
  | some labs => labs.filterMap (lowerLabel root)

/-- The file URIs of a diagnostic's lowered labels. -/
def diagUris (root : String) (d : RawDiag) : List String :=
  (loweredLabels root d).map Prod.fst

/-- Model of `State::publish_diagnostic` threading the `curr` error set and
the outbound channel: drop label-less diagnostics, record every lowered
label's URI in `curr`, and publish a single diagnostic to the primary
label's file (one notification per diagnostic). -/
def publishDiagnostic (root : String) (acc : List String × List Publication) (d : RawDiag) :
    List String × List Publication :=
  match d.labels? with
  | none => acc
  | some labs =>
    let lowered := labs.filterMap (lowerLabel root)
    let curr := (lowered.map Prod.fst).foldl insertUri acc.1
    match lowered with
    | [] => (curr, acc.2)
    | primary :: _related => (curr, acc.2 ++ [⟨primary.1, [diagMessage d primary.2]⟩])

/-- Model of `State::drain_dcx_diagnostics`: publish every diagnostic in
the `DiagCtx`, clear the context, then publish an empty diagnostics list
for every file in `prev \ curr`. -/
def drainDcx (st : ServerState) : ServerState :=
  let root := st.vfs.workspaceRoot
  let res := st.dcxDiags.foldl (publishDiagnostic root) (st.curr, st.outbox)
  let clears := (st.prev.filter (fun u => decide (u ∉ res.1))).map
    (fun u => (⟨u, []⟩ : Publication))
  ⟨st.vfs, st.checked, st.prev, res.1, [], res.2 ++ clears⟩

/-- Model of `State::compile_workspace`.  The driver invocation is
abstracted by its observable effects: `emitted` — the diagnostics the
compiler pushed into the shared `DiagCtx` during the check — and `res` —
its return value.  The error sets are swapped before the check; on
success the checked graph and symbol index are replaced; on failure the
driver error is emitted into the `DiagCtx` and the context drained. -/
def compileWorkspace (st : ServerState) (emitted : List RawDiag)
    (res : Except RawDiag CheckedPackageGraphS) : ServerState :=
  let stSwap : ServerState :=
    ⟨st.vfs, st.checked, st.curr, [], st.dcxDiags ++ emitted, st.outbox⟩
  match res with
  | Except.ok packages =>
    ⟨stSwap.vfs, updateSymbolLookup packages, stSwap.prev, stSwap.curr,
      stSwap.dcxDiags, stSwap.outbox⟩
  | Except.error err =>
    drainDcx
      ⟨stSwap.vfs, stSwap.checked, stSwap.prev, stSwap.curr,
        stSwap.dcxDiags ++ [err], stSwap.outbox⟩

/-- The single publication a diagnostic contributes (none when it has no
labels or no lowered labels). -/
def pubsOf (root : String) (d : RawDiag) : List Publication :=
  match d.labels? with
  | none => []
  | some labs =>
    match labs.filterMap (lowerLabel root) with
    | [] => []
    | primary :: _related => [⟨primary.1, [diagMessage d primary.2]⟩]

/-- The effect of one diagnostic on the `curr` error set. -/
def currStep (root : String) (c : List String) (d : RawDiag) : List String :=
  (diagUris root d).foldl insertUri c

theorem publishDiagnostic_eq (root : String) (acc : List String × List Publication)
    (d : RawDiag) :
    publishDiagnostic root acc d = (currStep root acc.1 d, acc.2 ++ pubsOf root d) := by
  unfold publishDiagnostic currStep pubsOf diagUris loweredLabels
  cases hl : d.labels? with
  | none => simp
  | some labs =>
    cases hf : labs.filterMap (lowerLabel root) with
    | nil => simp [hf]
    | cons p rest => simp [hf]

theorem drain_fold (root : String) :
    ∀ (ds : List RawDiag) (c : List String) (out : List Publication),
      ds.foldl (publishDiagnostic root) (c, out) =
        (ds.foldl (currStep root) c, out ++ ((ds.map (pubsOf root)).flatten)) := by
  intro ds
  induction ds with
  | nil => intro c out; simp
  | cons d rest ih =>
    intro c out
    rw [List.foldl_cons, publishDiagnostic_eq, ih]
    simp

theorem mem_insertUri (s : List String) (u v : String) :
    v ∈ insertUri s u ↔ v ∈ s ∨ v = u := by
  unfold insertUri
  by_cases h : u ∈ s
  · rw [if_pos h]
    constructor
    · exact Or.inl
    · rintro (hv | rfl)
      · exact hv
      · exact h
  · rw [if_neg h]
    simp

theorem mem_foldl_insertUri :
    ∀ (us : List String) (s : List String) (v : String),
      v ∈ us.foldl insertUri s ↔ v ∈ s ∨ v ∈ us := by
  intro us
  induction us with
  | nil => intro s v; simp
  | cons u rest ih =>
    intro s v
    rw [List.foldl_cons, ih, mem_insertUri]
    simp only [List.mem_cons]
    tauto

theorem mem_foldl_currStep (root : String) :
    ∀ (ds : List RawDiag) (c : List String) (v : String),
      v ∈ ds.foldl (currStep root) c ↔ v ∈ c ∨ ∃ d ∈ ds, v ∈ diagUris root d := by
  intro ds
  induction ds with
  | nil => intro c v; simp
  | cons d rest ih =>
    intro c v
    rw [List.foldl_cons, ih]
    unfold currStep
    rw [mem_foldl_insertUri]
    simp only [List.mem_cons]
    constructor
    · rintro ((hc | hd) | ⟨d', hd', hv⟩)
      · exact Or.inl hc
      · exact Or.inr ⟨d, Or.inl rfl, hd⟩
      · exact Or.inr ⟨d', Or.inr hd', hv⟩
    · rintro (hc | ⟨d', (rfl | hd'), hv⟩)
      · exact Or.inl (Or.inl hc)
      · exact Or.inl (Or.inr hv)
      · exact Or.inr ⟨d', hd', hv⟩

theorem mem_pubsOf (root : String) (d : RawDiag) (pb : Publication)
    (h : pb ∈ pubsOf root d) : pb.diags ≠ [] := by
  unfold pubsOf at h
  cases hl : d.labels? with
  | none => rw [hl] at h; cases h
  | some labs =>
    rw [hl] at h
    have h' : pb ∈ (match labs.filterMap (lowerLabel root) with
        | [] => ([] : List Publication)
        | primary :: _related => [⟨primary.1, [diagMessage d primary.2]⟩]) := h
    cases hf : labs.filterMap (lowerLabel root) with
    | nil => rw [hf] at h'; cases h'
    | cons p rest =>
      rw [hf] at h'
      have hpb : pb = ⟨p.1, [diagMessage d p.2]⟩ := by simpa using h'
      rw [hpb]
      simp

theorem drainDcx_eq (st : ServerState) :
    drainDcx st = ⟨st.vfs, st.checked, st.prev,
      st.dcxDiags.foldl (currStep st.vfs.workspaceRoot) st.curr, [],
      (st.outbox ++ ((st.dcxDiags.map (pubsOf st.vfs.workspaceRoot)).flatten)) ++
        ((st.prev.filter (fun u => decide (u ∉
            st.dcxDiags.foldl (currStep st.vfs.workspaceRoot) st.curr))).map
          (fun u => (⟨u, []⟩ : Publication)))⟩ := by
  simp only [drainDcx]
  rw [drain_fold]

/-- C2: `compile_workspace` moves `curr` into `prev` and empties `curr`
before the compiler runs (on both outcomes); on the draining path, the
post-drain `curr` holds exactly the URIs of the lowered labels of the
drained diagnostics, the `DiagCtx` is cleared, and the outbound channel
receives the per-diagnostic publications (each carrying a non-empty
diagnostics list) followed by exactly one empty-diagnostics publication
for each file in `prev \ curr` and no other empty publication. -/
theorem compile_diagnostic_lifecycle (st : ServerState) (emitted : List RawDiag)
    (e : RawDiag) (hnd : st.curr.Nodup) :
    ((compileWorkspace st emitted (Except.error e)).prev = st.curr) ∧
      (∀ g, (compileWorkspace st emitted (Except.ok g)).prev = st.curr ∧
        (compileWorkspace st emitted (Except.ok g)).curr = []) ∧
      (∀ u, u ∈ (compileWorkspace st emitted (Except.error e)).curr ↔
        ∃ d ∈ (st.dcxDiags ++ emitted) ++ [e], u ∈ diagUris st.vfs.workspaceRoot d) ∧
      ((compileWorkspace st emitted (Except.error e)).dcxDiags = []) ∧
      ∃ pubs clears,
        (compileWorkspace st emitted (Except.error e)).outbox = st.outbox ++ pubs ++ clears ∧
        (∀ pb ∈ pubs, pb.diags ≠ []) ∧
        (∀ pb ∈ clears, pb.diags = [] ∧ pb.uri ∈ st.curr ∧
          pb.uri ∉ (compileWorkspace st emitted (Except.error e)).curr) ∧
        ∀ u, u ∈ st.curr → u ∉ (compileWorkspace st emitted (Except.error e)).curr →
          clears.count (⟨u, []⟩ : Publication) = 1 := by
  have hcomp :
      compileWorkspace st emitted (Except.error e) =
        drainDcx ⟨st.vfs, st.checked, st.curr, [], (st.dcxDiags ++ emitted) ++ [e],
          st.outbox⟩ := rfl
  have hfull := hcomp.trans
    (drainDcx_eq ⟨st.vfs, st.checked, st.curr, [], (st.dcxDiags ++ emitted) ++ [e], st.outbox⟩)
  have hcurr :
      (compileWorkspace st emitted (Except.error e)).curr =
        ((st.dcxDiags ++ emitted) ++ [e]).foldl (currStep st.vfs.workspaceRoot) [] := by
    rw [hfull]
  have hprev : (compileWorkspace st emitted (Except.error e)).prev = st.curr := by
    rw [hfull]
  have hdcx : (compileWorkspace st emitted (Except.error e)).dcxDiags = [] := by
    rw [hfull]
  have houtbox :
      (compileWorkspace st emitted (Except.error e)).outbox =
        (st.outbox ++ ((((st.dcxDiags ++ emitted) ++ [e]).map
            (pubsOf st.vfs.workspaceRoot)).flatten)) ++
          ((st.curr.filter (fun u => decide (u ∉
              ((st.dcxDiags ++ emitted) ++ [e]).foldl (currStep st.vfs.workspaceRoot) []))).map
            (fun u => (⟨u, []⟩ : Publication))) := by
    rw [hfull]
  refine ⟨hprev, ?_, ?_, hdcx, ?_⟩
  · intro g
    constructor <;> rfl
  · intro u
    rw [hcurr, mem_foldl_currStep]
    simp
  · refine ⟨(((st.dcxDiags ++ emitted) ++ [e]).map (pubsOf st.vfs.workspaceRoot)).flatten,
      (st.curr.filter (fun u => decide (u ∉
          ((st.dcxDiags ++ emitted) ++ [e]).foldl (currStep st.vfs.workspaceRoot) []))).map
        (fun u => (⟨u, []⟩ : Publication)), ?_, ?_, ?_, ?_⟩
    · rw [houtbox]
    · intro pb hpb
      obtain ⟨pl, hpl, hpb⟩ := List.mem_flatten.mp hpb
      obtain ⟨d, _, hd⟩ := List.mem_map.mp hpl
      exact mem_pubsOf _ d pb (hd ▸ hpb)
    · intro pb hpb
      obtain ⟨u, hu, hpb⟩ := List.mem_map.mp hpb
      have hm := List.mem_filter.mp hu
      refine ⟨by rw [← hpb], by rw [← hpb]; exact hm.1, ?_⟩
      rw [← hpb, hcurr]
      exact of_decide_eq_true hm.2
    · intro u hu hnu
      rw [hcurr] at hnu
      have hinj : Function.Injective (fun u => (⟨u, []⟩ : Publication)) := by
        intro a b hab
        simpa [Publication.mk.injEq] using hab
      rw [List.count_map_of_injective _ _ hinj]
      apply List.count_eq_one_of_mem (hnd.filter _)
      apply List.mem_filter.mpr
      exact ⟨hu, decide_eq_true hnu⟩

/-- A concrete state for the C2 witness: one previously-erroring file, one
diagnostic already in the context, and a driver error with one label. -/
def stW2 : ServerState :=
  ⟨⟨"file:///ws/", []⟩, ⟨⟨[]⟩, ⟨[]⟩⟩, [], ["file:///ws/old.lm"], [], []⟩

def errW2 : RawDiag := ⟨some [⟨some (some "a.lm"), "type error"⟩], []⟩

theorem compile_diagnostic_lifecycle_witness :
    ((compileWorkspace stW2 [] (Except.error errW2)).prev = ["file:///ws/old.lm"]) ∧
      ((compileWorkspace stW2 [] (Except.error errW2)).dcxDiags = []) ∧
      ("file:///ws/a.lm" ∈ (compileWorkspace stW2 [] (Except.error errW2)).curr ↔
        ∃ d ∈ (stW2.dcxDiags ++ []) ++ [errW2],
          "file:///ws/a.lm" ∈ diagUris stW2.vfs.workspaceRoot d) :=
  ⟨(compile_diagnostic_lifecycle stW2 [] errW2 (by decide)).1,
    (compile_diagnostic_lifecycle stW2 [] errW2 (by decide)).2.2.2.1,
    (compile_diagnostic_lifecycle stW2 [] errW2 (by decide)).2.2.1 "file:///ws/a.lm"⟩

/-- C3: on a failed compile the checked graph and symbol index are left
untouched — every subsequent `lookup_position` answers exactly as before —
and on a successful compile the graph and the index are replaced
together from the new graph. -/
theorem compile_failure_frame (st : ServerState) (emitted : List RawDiag) (e : RawDiag)
    (g : CheckedPackageGraphS) (q : LocationS) :
    ((compileWorkspace st emitted (Except.error e)).checked = st.checked) ∧
      ((compileWorkspace st emitted (Except.error e)).checked.symbols.lookupPosition q =
        st.checked.symbols.lookupPosition q) ∧
      ((compileWorkspace st emitted (Except.ok g)).checked.graph = g) ∧
      ((compileWorkspace st emitted (Except.ok g)).checked.symbols = symbolsOfGraph g) :=
  ⟨rfl, rfl, rfl, rfl⟩

/-- A state with a stale error file, for exercising the success path of
`compile_workspace`. -/
def stW4 : ServerState :=
  ⟨⟨"file:///ws/", []⟩, ⟨⟨[]⟩, ⟨[]⟩⟩, [], ["file:///ws/a.lm"], [], []⟩

/-- A compiler warning sitting in the `DiagCtx` when the check succeeds. -/
def warnW4 : RawDiag := ⟨some [⟨some (some "a.lm"), "unused variable"⟩], []⟩

/-- C4 is violated by the code: `drain_dcx_diagnostics` is called only in
the `Err` branch of `compile_workspace`.  After a successful compile the
`DiagCtx` still holds the diagnostics emitted during the check (nothing
was drained or cleared), no notification is published, and the stale
error file in `prev \ curr` never receives its empty-diagnostics
publication. -/
theorem compile_success_skips_drain :
    ((compileWorkspace stW4 [warnW4] (Except.ok ⟨[]⟩)).dcxDiags = [warnW4]) ∧
      ((compileWorkspace stW4 [warnW4] (Except.ok ⟨[]⟩)).outbox = []) ∧
      ((compileWorkspace stW4 [warnW4] (Except.ok ⟨[]⟩)).prev = ["file:///ws/a.lm"]) ∧
      ((compileWorkspace stW4 [warnW4] (Except.ok ⟨[]⟩)).dcxDiags ≠ []) := by
  refine ⟨rfl, rfl, rfl, ?_⟩
  decide

/-- An outbound LSP response: success or an error with a JSON-RPC code and
message. -/
inductive ResponseS where
  | ok (id : Nat)
  | err (id : Nat) (code : Int) (message : String)
deriving DecidableEq, Repr

/-- `lsp_server::ErrorCode::MethodNotFound`. -/
def methodNotFoundCode : Int := -32601

/-- Model of `State::handle_request` in `src/listen.rs`: only
`textDocument/hover` is dispatched (its handler, `on_hover`, is abstracted
as a parameter since its replies depend on the whole workspace state);
every other method falls through the wildcard arm and sends nothing. -/
def handleRequestState (hover : Nat → List ResponseS) (method : String) (id : Nat) :
    List ResponseS :=
  if method = "textDocument/hover" then hover id else []

/-- One step of the `State::listen` receive loop on a request: a shutdown
request is answered with success (and the loop breaks); any other request
goes to `handle_request`. -/
def listenStepState (hover : Nat → List ResponseS) (method : String) (id : Nat) :
    List ResponseS :=
  if method = "shutdown" then [ResponseS.ok id] else handleRequestState hover method id

/-- Model of `Backend::handle_request` in `src/backend.rs`: every request
reaching it (shutdown is intercepted by `Connection::handle_shutdown`
beforehand) is answered with a `MethodNotFound` error. -/
def handleRequestBackend (id : Nat) : List ResponseS :=
  [ResponseS.err id methodNotFoundCode "unhandled method"]

/-- C6 counterexample: the claim says a request with an unknown method
(here `textDocument/definition`) is answered with a method-not-found
error, but the `State` dispatcher — the one that has hover wired — sends
no response at all for it: the wildcard arm of `handle_request` is
`_ => {}`. -/
theorem unknown_method_counterexample :
    listenStepState (fun _ => []) "textDocument/definition" 1 = [] ∧
      ResponseS.err 1 methodNotFoundCode "unhandled method" ∉
        listenStepState (fun _ => []) "textDocument/definition" 1 := by
  refine ⟨?_, ?_⟩ <;> decide

/-- C6 (amended): for a request whose method is neither `shutdown` nor
`textDocument/hover`, the `State` dispatcher sends no response at all
(the request is silently dropped), while the legacy `Backend` dispatcher
answers every request it handles — hover included — with a
`MethodNotFound` error. -/
theorem unknown_method_dispatch (hover : Nat → List ResponseS) (method : String) (id : Nat)
    (h1 : method ≠ "shutdown") (h2 : method ≠ "textDocument/hover") :
    listenStepState hover method id = [] ∧
      handleRequestBackend id = [ResponseS.err id methodNotFoundCode "unhandled method"] := by
  refine ⟨?_, rfl⟩
  unfold listenStepState handleRequestState
  rw [if_neg h1, if_neg h2]

theorem unknown_method_dispatch_witness :
    listenStepState (fun _ => []) "textDocument/definition" 7 = [] ∧
      handleRequestBackend 7 = [ResponseS.err 7 methodNotFoundCode "unhandled method"] :=
  unknown_method_dispatch (fun _ => []) "textDocument/definition" 7 (by decide) (by decide)

/-- One entry of `DidChangeTextDocumentParams::content_changes` under FULL
sync: the replacement text. -/
structure ContentChange where
  text : String
deriving DecidableEq, Repr

/-- `DidChangeTextDocumentParams`: target URI plus the change list. -/
structure DidChangeParamsS where
  uri : String
  contentChanges : List ContentChange
deriving DecidableEq, Repr

/-- `DidSaveTextDocumentParams`: target URI plus the optionally included
text. -/
structure DidSaveParamsS where
  uri : String
  text : Option String
deriving DecidableEq, Repr

/-- Model of `handlers::notification::change_document`: take the first
content change — `params.content_changes.first().unwrap()` panics when the
list is empty, modelled as `none` — update the VFS and recompile. -/
def changeDocumentHandler (st : ServerState) (p : DidChangeParamsS)
    (emitted : List RawDiag) (res : Except RawDiag CheckedPackageGraphS) :
    Option ServerState :=
  match p.contentChanges with
  | [] => none
  | c :: _rest =>
    some (compileWorkspace
      ⟨changeDocument st.vfs p.uri c.text, st.checked, st.prev, st.curr, st.dcxDiags,
        st.outbox⟩ emitted res)

/-- Model of `handlers::notification::save_document`: `params.text.unwrap()`
panics when the text is absent, modelled as `none`; otherwise update the
VFS and recompile. -/
def saveDocumentHandler (st : ServerState) (p : DidSaveParamsS)
    (emitted : List RawDiag) (res : Except RawDiag CheckedPackageGraphS) :
    Option ServerState :=
  match p.text with
  | none => none
  | some t =>
    some (compileWorkspace
      ⟨changeDocument st.vfs p.uri t, st.checked, st.prev, st.curr, st.dcxDiags,
        st.outbox⟩ emitted res)

/-- C10: a `didChange` with an empty `content_changes` list, and a
`didSave` without an included text, both panic (the failed `unwrap` of
`None`, modelled as the handlers returning `none`) instead of ignoring
the notification or reporting an error. -/
theorem notification_unwrap_panics (st : ServerState) (p : DidChangeParamsS)
    (q : DidSaveParamsS) (emitted : List RawDiag)
    (res : Except RawDiag CheckedPackageGraphS)
    (h1 : p.contentChanges = []) (h2 : q.text = none) :
    changeDocumentHandler st p emitted res = none ∧
      saveDocumentHandler st q emitted res = none := by
  constructor
  · unfold changeDocumentHandler
    rw [h1]
  · unfold saveDocumentHandler
    rw [h2]

/-- A concrete state for the C10 witness. -/
def stW10 : ServerState :=
  ⟨⟨"file:///ws/", []⟩, ⟨⟨[]⟩, ⟨[]⟩⟩, [], [], [], []⟩

theorem notification_unwrap_panics_witness :
    changeDocumentHandler stW10 ⟨"file:///ws/a.lm", []⟩ [] (Except.ok ⟨[]⟩) = none ∧
      saveDocumentHandler stW10 ⟨"file:///ws/a.lm", none⟩ [] (Except.ok ⟨[]⟩) = none :=
  notification_unwrap_panics stW10 ⟨"file:///ws/a.lm", []⟩ ⟨"file:///ws/a.lm", none⟩ []
    (Except.ok ⟨[]⟩) rfl rfl

end LumeLsp

